import Mathlib

/-!
Verification of the ask-ts transcript core: region scanner, turn parser,
reference expansion with zero-width-space escaping, refresh engine and the
streaming session writer.  Documents are modelled as lists of characters
(`Str`), the faithful shallow embedding of JavaScript strings; per-line
regular expressions from the source are translated into explicit character
scans.  Loops with non-unit index jumps are written with an explicit fuel
argument (initialised to one more than the line count, which the jump size
of at least one per step never exhausts) so that every definition is
structurally recursive and executable by kernel reduction.
-/

set_option maxRecDepth 4000

/-- Characters of a JavaScript string, in order. -/
abbrev Str := List Char

/-- Shorthand turning a Lean string literal into its character list. -/
def str (s : String) : Str := s.toList

/-- The zero-width space U+200B used by the escaping in expand.ts. -/
def zws : Char := Char.ofNat 0x200B

/-- The backtick character. -/
def btick : Char := '\x60'

/-- Whitespace test modelling the JavaScript `\s` class and `trim` set
(restricted to the ASCII whitespace actually occurring in documents). -/
def isWS (c : Char) : Bool := c.isWhitespace

/-- Leading run length of a character, as matched by a greedy anchored
regular expression such as `^(`+`{3,})`. -/
def leadingRun (t : Char) : Str → Nat
  | [] => 0
  | c :: rest => if c = t then leadingRun t rest + 1 else 0

/-- Both-ends trim, modelling `String.prototype.trim`. -/
def trimChars (l : Str) : Str :=
  ((l.dropWhile isWS).reverse.dropWhile isWS).reverse

/-- Right trim, modelling `String.prototype.trimEnd`. -/
def trimEndChars (l : Str) : Str :=
  (l.reverse.dropWhile isWS).reverse

/-- Split on newline, modelling `content.split('\n')`. -/
def splitLines : Str → List Str
  | [] => [[]]
  | c :: rest =>
    if c = '\n' then [] :: splitLines rest
    else
      match splitLines rest with
      | [] => [[c]]
      | l :: ls => (c :: l) :: ls

/-- Join with newline, modelling `lines.join('\n')`. -/
def joinLines (ls : List Str) : Str := List.intercalate ['\n'] ls

/-- Substring containment, modelling `String.prototype.includes`. -/
def containsSub (needle : Str) : Str → Bool
  | [] => needle.isEmpty
  | c :: rest => needle.isPrefixOf (c :: rest) || containsSub needle rest

/-- Replace the first occurrence of `pat` by `repl`, modelling the
single-replacement form of `String.prototype.replace` with a plain
pattern (no occurrence found leaves the string unchanged). -/
def replaceFirst (s pat repl : Str) : Str :=
  match s with
  | [] => []
  | c :: rest =>
    if pat.isPrefixOf (c :: rest) then repl ++ (c :: rest).drop pat.length
    else c :: replaceFirst rest pat repl

/-- Array splice, modelling `lines.splice(start, deleteCount, ...items)`. -/
def splice (ls : List Str) (start delete : Nat) (items : List Str) : List Str :=
  ls.take start ++ items ++ ls.drop (start + delete)

/-- Digit-string to number, modelling `parseInt` on a `\d+` capture. -/
def natOfDigits (l : Str) : Nat :=
  l.foldl (fun n c => n * 10 + (c.toNat - 48)) 0

/-- Decimal rendering of a number, modelling template interpolation. -/
def natToStr (n : Nat) : Str := (Nat.repr n).toList

/-- Word-character test modelling the JavaScript `\w` class. -/
def isWordChar (c : Char) : Bool := c.isAlphanum || c = '_'

/-! ## Data model (types.ts) -/

/-- Turn role, the two-variant sum behind the `'Human' | 'AI'` strings. -/
inductive Role where
  | Human
  | AI
deriving DecidableEq, Repr

/-- One numbered contribution to the transcript (types.ts `Turn`). -/
structure Turn where
  number : Nat
  role : Role
  content : Str
deriving DecidableEq, Repr

/-- Parsed session (types.ts `Session`); `lastHumanTurnIndex` is `-1`
when no Human turn exists. -/
structure Session where
  turns : List Turn
  lastHumanTurnIndex : Int
deriving DecidableEq, Repr

/-! ## Region scanner (regions.ts `findExcludedRegions`) -/

/-- Region kind (regions.ts `Region.type`). -/
inductive RegionType where
  | codeFence
  | expandedDir
  | expandedUrl
  | expandedFile
deriving DecidableEq, Repr

/-- Excluded line span; `stop` renders the source field `end` (a Lean
keyword), inclusive, and equal to the line count for an unterminated
region. -/
structure Region where
  type : RegionType
  start : Nat
  stop : Nat
deriving DecidableEq, Repr

/-- Closing-fence test: the line matches `^(`+`{3,})\s*$` with a run of at
least `flen` backticks. -/
def isFenceClose (flen : Nat) (line : Str) : Bool :=
  let k := leadingRun btick line
  3 ≤ k && (line.drop k).all isWS && flen ≤ k

/-- Marker-open test: the line matches `^<!-- tag: (.+) -->$` for the
given `openPre = "<!-- tag: "`. -/
def isMarkerOpen (openPre : Str) (line : Str) : Bool :=
  openPre.isPrefixOf line && (str " -->").isSuffixOf line &&
    openPre.length + 5 ≤ line.length

/-- Open-marker test for `<!-- dir: ... -->` lines. -/
def isDirMarkerOpen (line : Str) : Bool := isMarkerOpen (str "<!-- dir: ") line

/-- Open-marker test for `<!-- url: ... -->` lines. -/
def isUrlMarkerOpen (line : Str) : Bool := isMarkerOpen (str "<!-- url: ") line

/-- Open-marker test for `<!-- file: ... -->` lines. -/
def isFileMarkerOpen (line : Str) : Bool := isMarkerOpen (str "<!-- file: ") line

/-- Scan forward from `j` for the first line satisfying `p`; returns the
line count when none is found (the source's inner `while` loops). -/
def scanClose (p : Str → Bool) (lines : List Str) : Nat → Nat → Nat
  | 0, j => j
  | fuel + 1, j =>
    match lines[j]? with
    | none => j
    | some line => if p line then j else scanClose p lines fuel (j + 1)

/-- Main loop of `findExcludedRegions`, walking the line index with fuel. -/
def findExcludedRegionsAux (lines : List Str) : Nat → Nat → List Region
  | 0, _ => []
  | fuel + 1, i =>
    match lines[i]? with
    | none => []
    | some line =>
      if 3 ≤ leadingRun btick line then
        let flen := leadingRun btick line
        let j := scanClose (isFenceClose flen) lines lines.length (i + 1)
        ⟨.codeFence, i, j⟩ :: findExcludedRegionsAux lines fuel (j + 1)
      else if isDirMarkerOpen line then
        let j := scanClose (fun l => l = str "<!-- /dir -->") lines lines.length (i + 1)
        ⟨.expandedDir, i, j⟩ :: findExcludedRegionsAux lines fuel (j + 1)
      else if isUrlMarkerOpen line then
        let j := scanClose (fun l => l = str "<!-- /url -->") lines lines.length (i + 1)
        ⟨.expandedUrl, i, j⟩ :: findExcludedRegionsAux lines fuel (j + 1)
      else if isFileMarkerOpen line then
        let j := scanClose (fun l => l = str "<!-- /file -->") lines lines.length (i + 1)
        ⟨.expandedFile, i, j⟩ :: findExcludedRegionsAux lines fuel (j + 1)
      else findExcludedRegionsAux lines fuel (i + 1)

/-- regions.ts `findExcludedRegions`: one pass over the lines collecting
code-fence and expansion-marker spans. -/
def findExcludedRegions (lines : List Str) : List Region :=
  findExcludedRegionsAux lines (lines.length + 1) 0

/-- regions.ts `isInExcludedRegion`. -/
def isInExcludedRegion (i : Nat) (regions : List Region) : Bool :=
  regions.any (fun r => r.start ≤ i && i ≤ r.stop)

/-! ## Turn parser (parser.ts `parseSession`, `unwrapMarkdownFence`) -/

/-- Header-line match for `^# \[(\d+)\] (Human|AI)$`. -/
def parseHeaderLine (line : Str) : Option (Nat × Role) :=
  if (str "# [").isPrefixOf line then
    let rest := line.drop 3
    let digits := rest.takeWhile Char.isDigit
    let after := rest.drop digits.length
    if digits.isEmpty then none
    else if after = str "] Human" then some (natOfDigits digits, .Human)
    else if after = str "] AI" then some (natOfDigits digits, .AI)
    else none
  else none

/-- A turn header found outside every excluded region. -/
structure TurnHeader where
  lineIndex : Nat
  number : Nat
  role : Role
deriving DecidableEq, Repr

/-- Header collection loop of `parseSession`: every line outside the
excluded regions is tested against the header pattern. -/
def turnHeaders (lines : List Str) : List TurnHeader :=
  let regions := findExcludedRegions lines
  lines.enum.filterMap fun p =>
    if isInExcludedRegion p.1 regions then none
    else (parseHeaderLine p.2).map fun q => ⟨p.1, q.1, q.2⟩

/-- parser.ts `unwrapMarkdownFence`: strip the `markdown`-labelled wrapper
fence of 4+ backticks when present, and its closing fence when the content
ends with a newline followed by exactly that fence. -/
def unwrapMarkdownFence (content : Str) : Str :=
  let k := leadingRun btick content
  if 4 ≤ k ∧ (str "markdown\n").isPrefixOf (content.drop k) then
    let fence := List.replicate k btick
    let afterOpen := content.drop (k + 9)
    if ('\n' :: fence).isSuffixOf afterOpen then
      trimChars (afterOpen.take (afterOpen.length - (k + 1)))
    else content
  else content

/-- Content extraction loop of `parseSession`: each turn's content is the
lines strictly between its header and the next (or the end), joined and
trimmed; AI turns are unwrapped; blank turns are dropped. -/
def buildTurns (lines : List Str) : List TurnHeader → List Turn
  | [] => []
  | h :: rest =>
    let endLine := match rest with
      | h2 :: _ => h2.lineIndex
      | [] => lines.length
    let startLine := h.lineIndex + 1
    let raw := trimChars (joinLines ((lines.drop startLine).take (endLine - startLine)))
    let tc := if h.role = .AI then unwrapMarkdownFence raw else raw
    if tc.isEmpty then buildTurns lines rest
    else ⟨h.number, h.role, tc⟩ :: buildTurns lines rest

/-- Final scan of `parseSession`: index of the last Human turn, `-1` when
none exists. -/
def lastHumanTurnIndexOf (turns : List Turn) : Int :=
  match turns.reverse.findIdx? (fun t => t.role = .Human) with
  | some k => ((turns.length - 1 - k : Nat) : Int)
  | none => -1

/-- parser.ts `parseSession`. -/
def parseSession (content : Str) : Session :=
  let lines := splitLines content
  let turns := buildTurns lines (turnHeaders lines)
  ⟨turns, lastHumanTurnIndexOf turns⟩

/-! ## Reference expansion (expand.ts)

The bracket pattern of `expandReferences` is `\[\[([^\]​]+)\]\]`:
two opening brackets, one or more payload characters that are neither a
closing bracket nor a zero-width space, then two closing brackets.  The
greedy payload class stops at the first `]` or zero-width space, and no
backtracking can help (the payload may not contain `]`), so the scan
below is deterministic. -/

/-- Greedy payload scan of the reference pattern: returns the payload
characters read before a double closing bracket, failing on a zero-width
space or an unpaired `]`. -/
def scanPayload : Str → Option Str
  | [] => none
  | c :: rest =>
    if c = zws then none
    else if c = ']' then
      match rest with
      | ']' :: _ => some []
      | _ => none
    else
      match scanPayload rest with
      | some p => some (c :: p)
      | none => none

/-- Match of the reference pattern anchored at the start of the text;
returns the (non-empty) payload. -/
def matchRefAt : Str → Option Str
  | c1 :: c2 :: rest =>
    if c1 = '[' ∧ c2 = '[' then
      match scanPayload rest with
      | some p => if p.isEmpty then none else some p
      | none => none
    else none
  | _ => none

/-- Collect all matches left to right, resuming after each match, as
`content.matchAll(pattern)` does. -/
def findMatchesAux : Nat → Str → List Str
  | 0, _ => []
  | fuel + 1, l =>
    match l with
    | [] => []
    | _ :: rest =>
      match matchRefAt l with
      | some p => p :: findMatchesAux fuel (l.drop (p.length + 4))
      | none => findMatchesAux fuel rest

/-- Payloads of all `[[...]]` matches in the text, in order. -/
def findMatches (content : Str) : List Str := findMatchesAux (content.length + 1) content

/-- Full text of a match rebuilt from its payload. -/
def mkMatchText (payload : Str) : Str := str "[[" ++ payload ++ str "]]"

/-- Payload scan of the looser pattern `\[\[([^\]]+)\]\]` used by the
refresh engine's `unexpandedPattern.test`; it admits zero-width spaces. -/
def scanPayloadLoose : Str → Option Str
  | [] => none
  | c :: rest =>
    if c = ']' then
      match rest with
      | ']' :: _ => some []
      | _ => none
    else
      match scanPayloadLoose rest with
      | some p => some (c :: p)
      | none => none

/-- Anchored match of the looser pattern. -/
def matchRefAtLoose : Str → Option Str
  | c1 :: c2 :: rest =>
    if c1 = '[' ∧ c2 = '[' then
      match scanPayloadLoose rest with
      | some p => if p.isEmpty then none else some p
      | none => none
    else none
  | _ => none

/-- Existence of a match of the looser pattern anywhere in the text,
modelling `/\[\[([^\]]+)\]\]/.test(content)`. -/
def hasLooseMatch : Str → Bool
  | [] => false
  | c :: rest => (matchRefAtLoose (c :: rest)).isSome || hasLooseMatch rest

/-- The inline failure annotation `\n❌ Error: ref - message\n` spliced in
place of a reference whose resolution threw. -/
def errorInline (ref msg : Str) : Str :=
  str "\n❌ Error: " ++ ref ++ str " - " ++ msg ++ str "\n"

/-- Loop body of `expandReferences`: on success substitute the resolved
text for the first occurrence of the match, on failure substitute the
inline error annotation; the running pair is (text, resolved count). -/
def expandStep (R : Str → Except Str (Str × Nat)) (st : Str × Nat) (p : Str) : Str × Nat :=
  match R p with
  | .ok q => (replaceFirst st.1 (mkMatchText p) q.1, st.2 + q.2)
  | .error msg => (replaceFirst st.1 (mkMatchText p) (errorInline p msg), st.2)

/-- expand.ts `expandReferences`, with the per-reference resolver
(`expandReference`, closing over turn number and configuration) abstracted
as `R`; `.error` is the thrown case handled by the source's `catch`. -/
def expandReferences (R : Str → Except Str (Str × Nat)) (content : Str) : Str × Nat :=
  (findMatches content).foldl (expandStep R) (content, 0)

/-- One global double-character replacement: `replaceDouble t s` models
`s.replace(/tt/g, ` t + zws + t `)`, the left-to-right non-overlapping
substitution JavaScript performs. -/
def replaceDoubleAux (t : Char) : Nat → Str → Str
  | 0, l => l
  | _ + 1, [] => []
  | _ + 1, [c] => [c]
  | fuel + 1, c1 :: c2 :: rest =>
    if c1 = t ∧ c2 = t then t :: zws :: t :: replaceDoubleAux t fuel rest
    else c1 :: replaceDoubleAux t fuel (c2 :: rest)

/-- Entry point of the double-character replacement; each step of the
scan consumes at least one character, so fuel equal to the length is
never exhausted. -/
def replaceDouble (t : Char) (s : Str) : Str := replaceDoubleAux t s.length s

/-- The escaping step of `expandFile`: break every literal `[[` and `]]`
with a zero-width space. -/
def escapeBrackets (content : Str) : Str :=
  replaceDouble ']' (replaceDouble '[' content)

/-- Invariant of bracket-escaped text: every occurrence of a double
closing bracket is immediately preceded by `]` or a zero-width space, so
no reference-pattern payload (which excludes both) can sit before it. -/
def NoBadClose (l : Str) : Prop :=
  ∀ (u : Str) (x : Char) (v : Str), l = u ++ x :: ']' :: ']' :: v → x = ']' ∨ x = zws

/-- Lengths of the maximal backtick runs of the text, in order; the
matches of `/`+`{3,}/g` are exactly those of length at least 3. -/
def backtickRunsAux : Nat → Str → List Nat
  | cur, [] => if cur = 0 then [] else [cur]
  | cur, c :: rest =>
    if c = btick then backtickRunsAux (cur + 1) rest
    else if cur = 0 then backtickRunsAux 0 rest
    else cur :: backtickRunsAux 0 rest

/-- All maximal backtick run lengths of the text. -/
def backtickRuns (s : Str) : List Nat := backtickRunsAux 0 s

/-- expand.ts `fenceFor`: one more backtick than the longest run of 3+
backticks in the content, and never fewer than 3. -/
def fenceFor (content : Str) : Str :=
  List.replicate (((backtickRuns content).filter (fun n => 3 ≤ n)).foldl max 2 + 1) btick

/-- expand.ts `expandFile` after its filesystem reads: `content` is the
text of the (possibly filtered) file, `lang` the external language lookup
result.  Escapes brackets, sizes the fence, emits the block. -/
def expandFile (resolvedPath lang : Str) (turnNumber : Nat) (content : Str) : Str × Nat :=
  let escaped := escapeBrackets content
  let fence := fenceFor escaped
  let header :=
    if 0 < turnNumber then str "### [" ++ natToStr turnNumber ++ str "] " ++ resolvedPath
    else str "### " ++ resolvedPath
  ('\n' :: header ++ '\n' :: fence ++ lang ++ '\n' :: escaped ++ '\n' :: fence ++ ['\n'], 1)

/-- expand.ts `expandDirectory` with the filesystem abstracted:
`directChildren` is what `Glob(path/\*).scan()` yields (with a directory
flag per entry), `matchedFiles` what the main glob yields, `excl` the
exclude matcher, and `fileRes` the per-file expansion (`none` models an
`expandFile` throw, which the loop silently skips). -/
def expandDirectory (excl : Str → Bool) (fileRes : Str → Option Str)
    (directChildren : List (Str × Bool)) (matchedFiles : List Str)
    (path : Str) (recursive : Bool) : Str × Nat :=
  let hasSubdirs := !recursive && directChildren.any (fun e => !excl e.1 && e.2)
  let sections := matchedFiles.filterMap (fun f => if excl f then none else fileRes f)
  if sections.isEmpty then
    if hasSubdirs then
      (str "\n### " ++ path ++ str "/\n\n*(contains only subdirectories - use [[" ++
        path ++ str "/**/]] for recursive)*\n", 0)
    else
      (str "\n### " ++ path ++ str "/\n\n*(empty directory)*\n", 0)
  else
    let content := sections.foldl (· ++ ·) []
    let marker := if recursive then str "/**/" else str "/"
    (str "<!-- dir: " ++ path ++ marker ++ str " -->\n" ++ trimChars content ++
      str "\n<!-- /dir -->", sections.length)

/-! ## Refresh engine (session.ts) -/

/-- session.ts `DirectoryMarker`. -/
structure DirectoryMarker where
  pattern : Str
  startLine : Nat
  endLine : Nat
deriving DecidableEq, Repr

/-- Inner scan of `findDirectoryMarkers`: first line at or after `j`
whose trim equals `<!-- /dir -->`. -/
def findDirCloseAux (lines : List Str) : Nat → Nat → Option Nat
  | 0, _ => none
  | fuel + 1, j =>
    match lines[j]? with
    | none => none
    | some line =>
      if trimChars line = str "<!-- /dir -->" then some j
      else findDirCloseAux lines fuel (j + 1)

/-- Main loop of `findDirectoryMarkers`: a marker is recorded only when a
closing line is found; scanning then resumes past the block, while an
unterminated open line is simply stepped over. -/
def findDirectoryMarkersAux (lines : List Str) : Nat → Nat → List DirectoryMarker
  | 0, _ => []
  | fuel + 1, i =>
    match lines[i]? with
    | none => []
    | some line =>
      if isDirMarkerOpen line then
        match findDirCloseAux lines lines.length (i + 1) with
        | some j =>
          ⟨trimChars ((line.drop 10).take (line.length - 14)), i, j⟩ ::
            findDirectoryMarkersAux lines fuel (j + 1)
        | none => findDirectoryMarkersAux lines fuel (i + 1)
      else findDirectoryMarkersAux lines fuel (i + 1)

/-- session.ts `findDirectoryMarkers`. -/
def findDirectoryMarkers (content : Str) : List DirectoryMarker :=
  let lines := splitLines content
  findDirectoryMarkersAux lines (lines.length + 1) 0

/-- session.ts `FileBlock`; `stop` renders the source field `end`. -/
structure FileBlock where
  start : Nat
  stop : Nat
  filePath : Str
  fence : Str
  lang : Str
deriving DecidableEq, Repr

/-- Inner scan of `findFileBlocks`: first line at or after `j` exactly
equal to the target fence. -/
def findExactLineAux (lines : List Str) (target : Str) : Nat → Nat → Option Nat
  | 0, _ => none
  | fuel + 1, j =>
    match lines[j]? with
    | none => none
    | some line =>
      if line = target then some j else findExactLineAux lines target fuel (j + 1)

/-- Main loop of `findFileBlocks`: a `### path` line followed by a fence
line of 3+ backticks opens a block, recorded only when a line exactly
equal to the fence closes it; an unclosed fence scan exhausts the line
index and ends the whole walk. -/
def findFileBlocksAux (lines : List Str) : Nat → Nat → List FileBlock
  | 0, _ => []
  | fuel + 1, i =>
    match lines[i]? with
    | none => []
    | some line =>
      if (str "### ").isPrefixOf line then
        match lines[i + 1]? with
        | none => []
        | some fenceLine =>
          let k := leadingRun btick fenceLine
          if 3 ≤ k then
            let fence := List.replicate k btick
            let lang := (fenceLine.drop k).takeWhile isWordChar
            match findExactLineAux lines fence lines.length (i + 2) with
            | some j =>
              ⟨i, j, trimChars (line.drop 4), fence, lang⟩ ::
                findFileBlocksAux lines fuel (j + 1)
            | none => []
          else findFileBlocksAux lines fuel (i + 1)
      else findFileBlocksAux lines fuel (i + 1)

/-- session.ts `findFileBlocks`. -/
def findFileBlocks (content : Str) : List FileBlock :=
  let lines := splitLines content
  findFileBlocksAux lines (lines.length + 1) 0

/-- session.ts `ExpandedContent.type`. -/
inductive ExpType where
  | directory
  | file
deriving DecidableEq, Repr

/-- session.ts `ExpandedContent`. -/
structure ExpandedContent where
  type : ExpType
  pattern : Str
  startLine : Nat
  endLine : Nat
  isStandalone : Bool
deriving DecidableEq, Repr

/-- session.ts `findAllExpandedContent`: all directory markers, then the
file blocks not strictly inside any directory marker. -/
def findAllExpandedContent (content : Str) : List ExpandedContent :=
  let dirMarkers := findDirectoryMarkers content
  let fileBlocks := findFileBlocks content
  dirMarkers.map (fun m => ⟨.directory, m.pattern, m.startLine, m.endLine, true⟩) ++
    fileBlocks.filterMap (fun b =>
      if dirMarkers.any (fun d => d.startLine < b.start && b.stop < d.endLine) then none
      else some ⟨.file, b.filePath, b.start, b.stop, true⟩)

/-- The index-aware filter of the refresh file branch: drop the first and
last lines when blank, keep everything else. -/
def dropBlankEnds (ls : List Str) : List Str :=
  ls.enum.filterMap fun p =>
    if p.1 = 0 || p.1 = ls.length - 1 then
      if trimChars p.2 = [] then none else some p.2
    else some p.2

/-- One iteration of the refresh loop of `refreshAllContent`, splicing the
re-resolved text of the span into the line array. -/
def refreshStep (R : Str → Except Str (Str × Nat)) (st : List Str × Nat)
    (e : ExpandedContent) : List Str × Nat :=
  match e.type with
  | .directory =>
    let er := expandReferences R (mkMatchText e.pattern)
    let expandedLines := splitLines er.1
    match expandedLines.findIdx? (fun l => containsSub (str "<!-- dir:") l),
        expandedLines.findIdx? (fun l => trimChars l = str "<!-- /dir -->") with
    | some s, some t =>
      (splice st.1 e.startLine (e.endLine - e.startLine + 1)
        ((expandedLines.drop s).take (t + 1 - s)), st.2 + er.2)
    | _, _ => st
  | .file =>
    let er := expandReferences R (mkMatchText e.pattern)
    if 0 < er.2 then
      (splice st.1 e.startLine (e.endLine - e.startLine + 1)
        (dropBlankEnds (splitLines er.1)), st.2 + 1)
    else st

/-- session.ts `refreshAllContent` as a function from the on-disk content
to the final on-disk content plus the returned record: pass 1 expands any
unexpanded references, pass 2 splices the re-resolved expansion spans in
the reverse of the recorded order. -/
def refreshAllContent (R : Str → Except Str (Str × Nat)) (content : Str) :
    Str × Bool × Nat :=
  let hasUnexpanded := hasLooseMatch content
  let content1 :=
    if hasUnexpanded then
      let er := expandReferences R content
      if 0 < er.2 then er.1 else content
    else content
  let expansions := findAllExpandedContent content1
  if expansions.isEmpty then (content1, hasUnexpanded, 0)
  else
    let st := expansions.reverse.foldl (refreshStep R) (splitLines content1, 0)
    (joinLines st.1, true, st.2)

/-! ## Streaming session writer (session.ts `SessionWriter`) -/

/-- State of the streaming writer: the document content plus the two
flags of the source class. -/
structure SessionWriter where
  fileContent : Str
  turnNumber : Nat
  headerWritten : Bool
  contentWritten : Bool
deriving DecidableEq, Repr

/-- `SessionWriter.begin`: constructs the writer and immediately runs
`writeHeader`, which rewrites the file with the AI header and the opening
`markdown` wrapper fence appended. -/
def SessionWriter.begin (content : Str) (turnNumber : Nat) : SessionWriter :=
  ⟨trimEndChars content ++ str "\n\n# [" ++ natToStr turnNumber ++
    str "] AI\n\n````markdown\n", turnNumber, true, false⟩

/-- `SessionWriter.write`: append the chunk unless it is empty (or the
header was never written), recording that content was written. -/
def SessionWriter.write (w : SessionWriter) (chunk : Str) : SessionWriter :=
  if !w.headerWritten || chunk.isEmpty then w
  else ⟨w.fileContent ++ chunk, w.turnNumber, w.headerWritten, true⟩

/-- `SessionWriter.end` (named `endSession` as `end` is a Lean keyword):
append `\n[Interrupted]` when interrupted with content written, then the
closing fence and the next Human header. -/
def SessionWriter.endSession (w : SessionWriter) (interrupted : Bool) : SessionWriter :=
  if !w.headerWritten then w
  else
    let closing :=
      (if interrupted && w.contentWritten then str "\n[Interrupted]" else []) ++
        str "\n````\n\n# [" ++ natToStr (w.turnNumber + 1) ++ str "] Human\n\n"
    ⟨w.fileContent ++ closing, w.turnNumber, w.headerWritten, w.contentWritten⟩

/-- A whole streaming session: begin, stream the chunks, end. -/
def runWriter (content : Str) (n : Nat) (chunks : List Str) (interrupted : Bool) :
    SessionWriter :=
  (chunks.foldl SessionWriter.write (SessionWriter.begin content n)).endSession interrupted

/-! ## Concrete documents and resolvers used by individual claims -/

/-- Document with a standalone file block (lines 0-3) above a directory
block (lines 4-9). -/
def c1doc : Str :=
  str "### a.txt\n```\nx\n```\n<!-- dir: d/ -->\n### d/b.txt\n```\ny\n```\n<!-- /dir -->"

/-- Resolver for `c1doc` whose re-read of `a.txt` has one line more than
the recorded block. -/
def c1resolver : Str → Except Str (Str × Nat) := fun p =>
  if p = str "a.txt" then .ok (str "\n### a.txt\n```\nx1\nx2\n```\n", 1)
  else if p = str "d/" then
    .ok (str "<!-- dir: d/ -->\n### d/b.txt\n```\ny2\n```\n<!-- /dir -->", 1)
  else .error (str "File not found")

/-- Fake `# [2] AI` header inside a triple-backtick fence in turn 1. -/
def c2fakeDoc : Str :=
  str "# [1] Human\n\nHere is an example:\n\n```markdown\n# [2] AI\n\nFake turn inside fence\n```\n\n# [2] AI\n\nResponse"

/-- Turn 1 opens a code fence that is never closed; the later `# [2] AI`
line is inside the unterminated fence region. -/
def c2unclosedDoc : Str :=
  str "# [1] Human\n\n```typescript\nconst x = 1;\n// no closing fence\n\n# [2] AI\n\nResponse"

/-- AI-turn content whose opening fence has 4 backticks but whose closing
run has 5: strictly greater, not equal. -/
def c6cex : Str := str "````markdown\nhi\n`````"

/-- Document with an unterminated `<!-- dir: d/ -->` block containing a
file block. -/
def c10doc : Str := str "<!-- dir: d/ -->\n### d/a.txt\n```\nx\n```"

/-- Resolver for `c10doc` returning changed file content. -/
def c10resolver : Str → Except Str (Str × Nat) := fun p =>
  if p = str "d/a.txt" then .ok (str "\n### d/a.txt\n```\nCHANGED\n```\n", 1)
  else .error (str "File not found")

/-- Resolver for the C7 witness: `ok` resolves, everything else throws. -/
def c7resolver : Str → Except Str (Str × Nat) := fun p =>
  if p = str "ok" then .ok (str "T", 1) else .error (str "no")

/-- Resolver that always fails, for the C10 witness. -/
def failResolver : Str → Except Str (Str × Nat) := fun _ => .error (str "nope")

/-! # Theorems -/

/-- Claim C1: refreshAllContent is claimed to process the recorded
expansion spans in reverse document order (highest line index first).  On
`c1doc` the recorded spans are the directory block (lines 4-9) followed by
the standalone file block (lines 0-3); reversing that list processes the
file span (line 0) *before* the directory span (line 4), so the order is
ascending, not descending, and when the re-read file grows by one line
the directory span's recorded offsets are stale at splice time, producing
a corrupted document (the file block loses its closing fence and a stray
`<!-- /dir -->` line is left behind). -/
theorem c1_refresh_processing_order_bug :
    ((findAllExpandedContent c1doc).reverse).map (fun e => e.startLine) = [0, 4] ∧
    ¬ List.Chain' (fun a b => b.startLine < a.startLine)
      ((findAllExpandedContent c1doc).reverse) ∧
    refreshAllContent c1resolver c1doc =
      (str "### a.txt\n```\nx1\nx2\n<!-- dir: d/ -->\n### d/b.txt\n```\ny2\n```\n<!-- /dir -->\n<!-- /dir -->",
        true, 2) := by
  refine ⟨by decide, ?_, by decide⟩
  intro h
  have h1 : ((findAllExpandedContent c1doc).reverse).map (fun e => e.startLine) = [0, 4] := by
    decide
  rw [show (findAllExpandedContent c1doc).reverse =
    [⟨.file, str "a.txt", 0, 3, true⟩, ⟨.directory, str "d/", 4, 9, true⟩] from by decide] at h
  simp [List.chain'_cons] at h

/-- Claim C5 counterexample: after `SessionWriter.begin` with zero chunks
streamed, `end(false)` is not a no-op — it appends the closing fence and
the next Human header. -/
theorem c5_end_not_noop_counterexample :
    (runWriter (str "x") 5 [] false).fileContent ≠
      (SessionWriter.begin (str "x") 5).fileContent ∧
    (runWriter (str "x") 5 [] false).fileContent =
      str "x\n\n# [5] AI\n\n````markdown\n\n````\n\n# [6] Human\n\n" := by
  constructor
  · decide
  · decide

/-- Claim C6 counterexample: content whose opening `markdown` fence has 4
backticks and whose closing run has 5 (equal-or-greater per the claim) is
returned unchanged; the claimed stripping to `hi` does not happen. -/
theorem c6_longer_close_counterexample :
    unwrapMarkdownFence c6cex = c6cex ∧ unwrapMarkdownFence c6cex ≠ str "hi" := by
  constructor
  · decide
  · decide

/-- Claim C8 counterexample: a recursive directory reference resolving
zero files over a directory with a non-excluded direct child directory
yields the "empty directory" note, not the "contains only subdirectories"
hint the claim requires whenever such a child exists. -/
theorem c8_recursive_subdir_counterexample :
    expandDirectory (fun _ => false) (fun _ => none) [(str "d/sub", true)] []
        (str "d") true =
      (str "\n### d/\n\n*(empty directory)*\n", 0) ∧
    (str "\n### d/\n\n*(empty directory)*\n" : Str) ≠
      str "\n### d/\n\n*(contains only subdirectories - use [[d/**/]] for recursive)*\n" := by
  constructor
  · decide
  · decide

/-- Claim C10 counterexample: the unterminated `<!-- dir: d/ -->` block of
`c10doc` yields no directory marker, yet refreshAllContent does not leave
the block's lines byte-for-byte unchanged — the file block inside it is
treated as standalone and re-resolved. -/
theorem c10_interior_file_refreshed_counterexample :
    findDirectoryMarkers c10doc = [] ∧
    refreshAllContent c10resolver c10doc =
      (str "<!-- dir: d/ -->\n### d/a.txt\n```\nCHANGED\n```", true, 1) ∧
    (refreshAllContent c10resolver c10doc).1 ≠ c10doc := by
  refine ⟨by decide, by decide, by decide⟩

/-! ## Escaping lemmas (claim C3) -/

/-- The replacement scan emits the head character of its input first. -/
theorem replaceDoubleAux_head_eq (t : Char) :
    ∀ (fuel : Nat) (c : Char) (rest : Str) (d : Char) (tl : Str),
      replaceDoubleAux t fuel (c :: rest) = d :: tl → d = c := by
  intro fuel c rest d tl h
  cases fuel with
  | zero =>
    rw [replaceDoubleAux] at h
    injection h with h1 _
    exact h1.symm
  | succ fuel =>
    cases rest with
    | nil =>
      rw [replaceDoubleAux] at h
      injection h with h1 _
      exact h1.symm
    | cons c2 rest2 =>
      by_cases hc : c = t ∧ c2 = t
      · rw [replaceDoubleAux, if_pos hc] at h
        injection h with h1 _
        rw [← h1, hc.1]
      · rw [replaceDoubleAux, if_neg hc] at h
        injection h with h1 _
        exact h1.symm

/-- With adequate fuel, the output of the closing-bracket replacement
never starts with two closing brackets. -/
theorem replaceDoubleAux_not_close_start :
    ∀ (fuel : Nat) (l : Str), l.length ≤ fuel →
      ∀ (v : Str), replaceDoubleAux ']' fuel l ≠ ']' :: ']' :: v := by
  intro fuel l hl v h
  cases fuel with
  | zero =>
    have hnil : l = [] := List.length_eq_zero.mp (Nat.le_zero.mp hl)
    subst hnil
    rw [replaceDoubleAux] at h
    exact absurd (congrArg List.length h) (by simp)
  | succ fuel =>
    cases l with
    | nil =>
      rw [replaceDoubleAux] at h
      exact absurd (congrArg List.length h) (by simp)
    | cons c1 rest =>
      cases rest with
      | nil =>
        rw [replaceDoubleAux] at h
        have := congrArg List.length h
        simp at this
      | cons c2 rest2 =>
        by_cases hc : c1 = ']' ∧ c2 = ']'
        · rw [replaceDoubleAux, if_pos hc] at h
          have hz : zws = ']' := by injection h with _ h2; injection h2
          exact absurd hz (by decide)
        · rw [replaceDoubleAux, if_neg hc] at h
          have hc1 : c1 = ']' := by injection h
          have h2 : replaceDoubleAux ']' fuel (c2 :: rest2) = ']' :: v := by
            injection h
          have hc2 := replaceDoubleAux_head_eq ']' fuel c2 rest2 ']' v h2
          exact hc ⟨hc1, hc2.symm⟩

/-- With adequate fuel, every `]]` occurrence in the output of the
closing-bracket replacement is preceded by `]` or a zero-width space. -/
theorem replaceDoubleAux_noBadClose :
    ∀ (fuel : Nat) (l : Str), l.length ≤ fuel →
      NoBadClose (replaceDoubleAux ']' fuel l) := by
  intro fuel
  induction fuel with
  | zero =>
    intro l hl u x v h
    have hnil : l = [] := List.length_eq_zero.mp (Nat.le_zero.mp hl)
    subst hnil
    rw [replaceDoubleAux] at h
    have := congrArg List.length h
    simp at this
    omega
  | succ fuel ih =>
    intro l hl u x v h
    cases l with
    | nil =>
      rw [replaceDoubleAux] at h
      have := congrArg List.length h
      simp at this
      omega
    | cons c1 rest =>
      cases rest with
      | nil =>
        rw [replaceDoubleAux] at h
        have := congrArg List.length h
        simp at this
        omega
      | cons c2 rest2 =>
        by_cases hc : c1 = ']' ∧ c2 = ']'
        · rw [replaceDoubleAux, if_pos hc] at h
          rcases u with _ | ⟨a, _ | ⟨b, _ | ⟨d, u3⟩⟩⟩
          · left
            injection h with h1 _
            exact h1.symm
          · right
            injection h with _ h2
            injection h2 with h2 _
            exact h2.symm
          · left
            injection h with _ h2
            injection h2 with _ h3
            injection h3 with h3 _
            exact h3.symm
          · have h4 : replaceDoubleAux ']' fuel rest2 = u3 ++ x :: ']' :: ']' :: v := by
              injection h with _ h2
              injection h2 with _ h3
              injection h3 with _ h4
            have hlen : rest2.length ≤ fuel := by
              simp only [List.length_cons] at hl
              omega
            exact ih rest2 hlen u3 x v h4
        · rw [replaceDoubleAux, if_neg hc] at h
          have hlen : (c2 :: rest2).length ≤ fuel := by
            simp only [List.length_cons] at hl ⊢
            omega
          rcases u with _ | ⟨a, u1⟩
          · exfalso
            have h2 : replaceDoubleAux ']' fuel (c2 :: rest2) = ']' :: ']' :: v := by
              injection h with h1 h2
            exact replaceDoubleAux_not_close_start fuel (c2 :: rest2) hlen v h2
          · have h4 : replaceDoubleAux ']' fuel (c2 :: rest2) = u1 ++ x :: ']' :: ']' :: v := by
              injection h
            exact ih (c2 :: rest2) hlen u1 x v h4

/-- Bracket-escaped text satisfies the `]]`-occurrence invariant. -/
theorem escapeBrackets_noBadClose (content : Str) :
    NoBadClose (escapeBrackets content) := by
  unfold escapeBrackets replaceDouble
  exact replaceDoubleAux_noBadClose _ _ le_rfl

/-- A successful payload scan decomposes its input: the payload is free of
closing brackets and zero-width spaces and is followed by `]]`. -/
theorem scanPayload_spec :
    ∀ (m p : Str), scanPayload m = some p →
      (∀ c ∈ p, c ≠ ']' ∧ c ≠ zws) ∧ ∃ r, m = p ++ ']' :: ']' :: r := by
  intro m
  induction m with
  | nil => intro p h; rw [scanPayload] at h; exact absurd h (by simp)
  | cons c rest ih =>
    intro p h
    rw [scanPayload.eq_def] at h
    simp only at h
    by_cases hz : c = zws
    · rw [if_pos hz] at h
      exact absurd h (by simp)
    · rw [if_neg hz] at h
      by_cases hb : c = ']'
      · rw [if_pos hb] at h
        cases rest with
        | nil => exact absurd h (by simp)
        | cons c2 rest2 =>
          by_cases hb2 : c2 = ']'
          · subst hb2
            simp only at h
            have hp : p = [] := by
              injection h with h1
              exact h1.symm
            subst hp
            exact ⟨by simp, rest2, by simp [hb]⟩
          · have : (match c2 :: rest2 with
                | ']' :: _ => some ([] : Str)
                | _ => none) = (none : Option Str) := by
              cases c2; simp_all
            rw [this] at h
            exact absurd h (by simp)
      · rw [if_neg hb] at h
        cases hsp : scanPayload rest with
        | none => rw [hsp] at h; exact absurd h (by simp)
        | some p2 =>
          rw [hsp] at h
          simp only at h
          have hp : p = c :: p2 := by injection h with h1; exact h1.symm
          subst hp
          obtain ⟨hmem, r, hr⟩ := ih p2 hsp
          refine ⟨?_, r, by rw [hr]; simp⟩
          intro d hd
          rcases List.mem_cons.mp hd with h1 | h1
          · subst h1; exact ⟨hb, hz⟩
          · exact hmem d h1

/-- A successful anchored reference match decomposes its input. -/
theorem matchRefAt_some :
    ∀ (l p : Str), matchRefAt l = some p →
      ∃ rest, l = '[' :: '[' :: rest ∧ scanPayload rest = some p ∧ p ≠ [] := by
  intro l p h
  match l with
  | [] =>
    rw [matchRefAt.eq_def] at h
    simp only at h
    exact absurd h (by simp)
  | [c] =>
    rw [matchRefAt.eq_def] at h
    simp only at h
    exact absurd h (by simp)
  | c1 :: c2 :: rest =>
    rw [matchRefAt.eq_def] at h
    simp only at h
    by_cases hbr : c1 = '[' ∧ c2 = '['
    · rw [if_pos hbr] at h
      cases hsp : scanPayload rest with
      | none => rw [hsp] at h; exact absurd h (by simp)
      | some p2 =>
        rw [hsp] at h
        simp only at h
        by_cases hne : p2.isEmpty
        · rw [if_pos hne] at h; exact absurd h (by simp)
        · rw [if_neg hne] at h
          have hp : p2 = p := by injection h
          subst hp
          exact ⟨rest, by rw [hbr.1, hbr.2], hsp, by simpa [List.isEmpty_iff] using hne⟩
    · rw [if_neg hbr] at h
      exact absurd h (by simp)

/-- On text satisfying the `]]` invariant no reference match can start
anywhere: the payload's last character would have to precede a `]]`. -/
theorem matchRefAt_none_of_noBadClose (l : Str) (h : NoBadClose l) :
    matchRefAt l = none := by
  cases hm : matchRefAt l with
  | none => rfl
  | some p =>
    exfalso
    obtain ⟨rest, hl, hsp, hne⟩ := matchRefAt_some l p hm
    obtain ⟨hmem, r, hr⟩ := scanPayload_spec rest p hsp
    have hx : p = p.dropLast ++ [p.getLast hne] := (List.dropLast_append_getLast hne).symm
    have hocc : l = ('[' :: '[' :: p.dropLast) ++ p.getLast hne :: ']' :: ']' :: r := by
      rw [hl, hr]
      conv_lhs => rw [hx]
      simp
    have := h ('[' :: '[' :: p.dropLast) (p.getLast hne) r hocc
    have hmem' := hmem (p.getLast hne) (List.getLast_mem hne)
    rcases this with h1 | h1
    · exact hmem'.1 h1
    · exact hmem'.2 h1

/-- The invariant transfers to the tail of a list. -/
theorem noBadClose_tail (c : Char) (l : Str) (h : NoBadClose (c :: l)) :
    NoBadClose l := by
  intro u x v hu
  exact h (c :: u) x v (by rw [hu]; rfl)

/-- On text satisfying the `]]` invariant the match scan finds nothing. -/
theorem findMatchesAux_nil_of_noBadClose :
    ∀ (fuel : Nat) (l : Str), NoBadClose l → findMatchesAux fuel l = [] := by
  intro fuel
  induction fuel with
  | zero => intro l _; rw [findMatchesAux]
  | succ fuel ih =>
    intro l h
    cases l with
    | nil => rw [findMatchesAux]
    | cons c rest =>
      rw [findMatchesAux, matchRefAt_none_of_noBadClose (c :: rest) h]
      exact ih rest (noBadClose_tail c rest h)

/-- Claim C3: file resolution escapes every literal `[[` and `]]` by a
zero-width space between the bracket characters (third conjunct shows the
escape on `[[x]]` itself), and re-running reference expansion on escaped
text matches nothing and returns the text unchanged with zero resolutions
— expansion is idempotent on its own output. -/
theorem c3_escaping_idempotence :
    ∀ content : Str,
      findMatches (escapeBrackets content) = [] ∧
      (∀ R, expandReferences R (escapeBrackets content) = (escapeBrackets content, 0)) ∧
      escapeBrackets (str "[[x]]") = ['[', zws, '[', 'x', ']', zws, ']'] := by
  intro content
  have hnil : findMatches (escapeBrackets content) = [] :=
    findMatchesAux_nil_of_noBadClose _ _ (escapeBrackets_noBadClose content)
  refine ⟨hnil, ?_, by decide⟩
  intro R
  rw [expandReferences, hnil]
  rfl

/-! ## Turn parser lemmas (claim C2) -/

/-- Every header collected by the parser lies outside all excluded
regions: the collection loop guards on the region test. -/
theorem turnHeaders_not_in_region (lines : List Str) (h : TurnHeader)
    (hm : h ∈ turnHeaders lines) :
    isInExcludedRegion h.lineIndex (findExcludedRegions lines) = false := by
  unfold turnHeaders at hm
  obtain ⟨⟨i, line⟩, _, hf⟩ := List.mem_filterMap.mp hm
  by_cases hreg : isInExcludedRegion i (findExcludedRegions lines) = true
  · rw [if_pos hreg] at hf
    exact absurd hf (by simp)
  · rw [if_neg hreg] at hf
    cases hp : parseHeaderLine line with
    | none => rw [hp] at hf; exact absurd hf (by simp)
    | some q =>
      rw [hp] at hf
      have hh : (⟨i, q.1, q.2⟩ : TurnHeader) = h := by simpa using hf
      have hi : h.lineIndex = i := by rw [← hh]
      rw [hi]
      exact Bool.not_eq_true _ |>.mp hreg

/-- Claim C2: header-like lines inside excluded regions are never turn
boundaries.  First conjunct: in every document, every header the parser
collects lies outside the excluded regions.  Second and third: the fake
`# [2] AI` inside a triple-backtick fence in turn 1 of `c2fakeDoc`
produces no extra turn (exactly the two real turns parse).  Fourth: the
unterminated fence of `c2unclosedDoc` absorbs the rest of the document,
leaving exactly 1 turn. -/
theorem c2_region_exclusion :
    (∀ (lines : List Str) (h : TurnHeader), h ∈ turnHeaders lines →
        isInExcludedRegion h.lineIndex (findExcludedRegions lines) = false) ∧
    (parseSession c2fakeDoc).turns.map (fun t => (t.number, t.role)) =
      [(1, .Human), (2, .AI)] ∧
    (parseSession c2fakeDoc).turns.length = 2 ∧
    (parseSession c2unclosedDoc).turns.length = 1 :=
  ⟨turnHeaders_not_in_region, by decide, by decide, by decide⟩

/-- Witness for C2: the theorem applied to the line of the fake header
(line 5 of `c2fakeDoc`, which sits inside the fence region) and to the
real header at line 0. -/
theorem c2_region_exclusion_witness :
    isInExcludedRegion 0 (findExcludedRegions (splitLines c2fakeDoc)) = false :=
  c2_region_exclusion.1 (splitLines c2fakeDoc) ⟨0, 1, .Human⟩ (by decide)

/-! ## Region scanner lemmas (claim C9) -/

/-- An index with a present element is within bounds. -/
theorem getElem?_some_lt {α : Type} (l : List α) (j : Nat) (a : α)
    (h : l[j]? = some a) : j < l.length := by
  by_contra hc
  rw [List.getElem?_eq_none (Nat.le_of_not_lt hc)] at h
  exact absurd h (by simp)

/-- The forward close scan never moves backwards. -/
theorem scanClose_ge (p : Str → Bool) (lines : List Str) :
    ∀ (fuel j : Nat), j ≤ scanClose p lines fuel j := by
  intro fuel
  induction fuel with
  | zero => intro j; rw [scanClose]
  | succ fuel ih =>
    intro j
    rw [scanClose]
    cases h : lines[j]? with
    | none => simp
    | some line =>
      simp only
      by_cases hp : p line
      · rw [if_pos hp]
      · rw [if_neg hp]
        exact Nat.le_trans (Nat.le_succ j) (ih (j + 1))

/-- The forward close scan never runs past the line count when started
within it. -/
theorem scanClose_le (p : Str → Bool) (lines : List Str) :
    ∀ (fuel j : Nat), j ≤ lines.length → scanClose p lines fuel j ≤ lines.length := by
  intro fuel
  induction fuel with
  | zero => intro j hj; rw [scanClose]; exact hj
  | succ fuel ih =>
    intro j hj
    rw [scanClose]
    cases h : lines[j]? with
    | none => simpa using hj
    | some line =>
      simp only
      by_cases hp : p line
      · rw [if_pos hp]; exact hj
      · rw [if_neg hp]
        exact ih (j + 1) (getElem?_some_lt lines j line h)

/-- Every region produced by the scanner loop starting at `i` starts at
or after `i`, is non-degenerate, and ends within the line count (the line
count itself marking an unterminated region). -/
theorem findExcludedRegionsAux_mem (lines : List Str) :
    ∀ (fuel i : Nat) (r : Region), r ∈ findExcludedRegionsAux lines fuel i →
      i ≤ r.start ∧ r.start < r.stop ∧ r.stop ≤ lines.length := by
  intro fuel
  induction fuel with
  | zero =>
    intro i r hr
    rw [findExcludedRegionsAux] at hr
    exact absurd hr (by simp)
  | succ fuel ih =>
    intro i r hr
    rw [findExcludedRegionsAux] at hr
    cases hline : lines[i]? with
    | none => rw [hline] at hr; exact absurd hr (by simp)
    | some line =>
      rw [hline] at hr
      simp only at hr
      have hi : i < lines.length := getElem?_some_lt lines i line hline
      have hstep : ∀ (p : Str → Bool) (t : RegionType),
          r ∈ (⟨t, i, scanClose p lines lines.length (i + 1)⟩ : Region) ::
              findExcludedRegionsAux lines fuel
                (scanClose p lines lines.length (i + 1) + 1) →
          i ≤ r.start ∧ r.start < r.stop ∧ r.stop ≤ lines.length := by
        intro p t hmem
        have hge := scanClose_ge p lines lines.length (i + 1)
        have hle := scanClose_le p lines lines.length (i + 1) hi
        rcases List.mem_cons.mp hmem with h | h
        · subst h
          exact ⟨le_rfl, by simp only; omega, hle⟩
        · have := ih _ r h
          exact ⟨by omega, this.2.1, this.2.2⟩
      split_ifs at hr with h1 h2 h3 h4
      · exact hstep _ _ hr
      · exact hstep _ _ hr
      · exact hstep _ _ hr
      · exact hstep _ _ hr
      · have h5 := ih (i + 1) r hr
        exact ⟨by omega, h5.2.1, h5.2.2⟩

/-- The regions produced by the scanner loop are chained: each ends
strictly before the next begins. -/
theorem findExcludedRegionsAux_chain (lines : List Str) :
    ∀ (fuel i : Nat),
      List.Chain' (fun a b => a.stop < b.start) (findExcludedRegionsAux lines fuel i) := by
  intro fuel
  induction fuel with
  | zero => intro i; rw [findExcludedRegionsAux]; exact List.chain'_nil
  | succ fuel ih =>
    intro i
    rw [findExcludedRegionsAux]
    cases hline : lines[i]? with
    | none => exact List.chain'_nil
    | some line =>
      simp only
      have hcons : ∀ (t : RegionType) (j : Nat),
          List.Chain' (fun a b => a.stop < b.start)
            ((⟨t, i, j⟩ : Region) :: findExcludedRegionsAux lines fuel (j + 1)) := by
        intro t j
        refine List.chain'_cons'.mpr ⟨?_, ih (j + 1)⟩
        intro y hy
        have hmem := List.mem_of_mem_head? hy
        have := findExcludedRegionsAux_mem lines fuel (j + 1) y hmem
        simp only
        omega
      split_ifs <;> first
        | exact hcons _ _
        | exact ih (i + 1)

/-- Claim C9: for every line array the region list is sorted and
non-overlapping — every region has `start < stop` (hence `start ≤ stop`),
regions are in strictly increasing start order with each starting
strictly after the previous region's end, and every end is at most the
line count (reached only by an unterminated region). -/
theorem c9_region_list_invariant :
    ∀ lines : List Str,
      (∀ r ∈ findExcludedRegions lines, r.start < r.stop ∧ r.stop ≤ lines.length) ∧
      List.Chain' (fun a b => a.stop < b.start) (findExcludedRegions lines) := by
  intro lines
  constructor
  · intro r hr
    exact (findExcludedRegionsAux_mem lines (lines.length + 1) 0 r hr).2
  · exact findExcludedRegionsAux_chain lines (lines.length + 1) 0

/-- Witness for C9 on a concrete document: its single fence region spans
lines 0-2 of a 3-line document. -/
theorem c9_region_list_invariant_witness :
    (⟨.codeFence, 0, 2⟩ : Region).start < (⟨.codeFence, 0, 2⟩ : Region).stop ∧
    (⟨.codeFence, 0, 2⟩ : Region).stop ≤ (splitLines (str "```\nx\n```")).length :=
  (c9_region_list_invariant (splitLines (str "```\nx\n```"))).1
    ⟨.codeFence, 0, 2⟩ (by decide)

/-! ## Fence sizing lemmas (claim C4) -/

/-- Folding `max` from a combined seed splits off the left component. -/
theorem foldl_max_split : ∀ (l : List Nat) (a b : Nat),
    l.foldl max (max a b) = max a (l.foldl max b) := by
  intro l
  induction l with
  | nil => intro a b; rfl
  | cons c l ih =>
    intro a b
    simp only [List.foldl_cons]
    rw [Nat.max_assoc, ih]

/-- Dropping runs shorter than 3 does not change the `max`-fold seeded at
2. -/
theorem foldl_max_filter_ge3 : ∀ (l : List Nat),
    (l.filter (fun n => 3 ≤ n)).foldl max 2 = max 2 (l.foldl max 0) := by
  intro l
  induction l with
  | nil => rfl
  | cons c l ih =>
    by_cases hc : 3 ≤ c
    · rw [List.filter_cons_of_pos (by simpa using hc), List.foldl_cons,
        List.foldl_cons]
      have h1 : max 2 c = max c 2 := Nat.max_comm 2 c
      rw [h1, foldl_max_split, ih]
      have h2 : max 0 c = max c 0 := Nat.max_comm 0 c
      rw [h2, foldl_max_split]
      omega
    · rw [List.filter_cons_of_neg (by simpa using hc), List.foldl_cons, ih]
      have h2 : max 0 c = max c 0 := Nat.max_comm 0 c
      rw [h2, foldl_max_split]
      omega

/-- The seed is bounded by the `max`-fold. -/
theorem seed_le_foldl_max : ∀ (l : List Nat) (a : Nat), a ≤ l.foldl max a := by
  intro l
  induction l with
  | nil => intro a; exact le_rfl
  | cons c l ih =>
    intro a
    rw [List.foldl_cons]
    exact Nat.le_trans (Nat.le_max_left a c) (ih (max a c))

/-- Every member is bounded by the `max`-fold. -/
theorem mem_le_foldl_max : ∀ (l : List Nat) (a x : Nat), x ∈ l → x ≤ l.foldl max a := by
  intro l
  induction l with
  | nil => intro a x hx; exact absurd hx (by simp)
  | cons c l ih =>
    intro a x hx
    rw [List.foldl_cons]
    rcases List.mem_cons.mp hx with h | h
    · subst h
      exact Nat.le_trans (Nat.le_max_right a x) (seed_le_foldl_max l (max a x))
    · exact ih (max a c) x h

/-- Claim C4: the wrapping fence has length `max(k, 2) + 1` where `k` is
the longest backtick run of the content, is always at least 3, and is
strictly longer than every backtick run inside the wrapped content. -/
theorem c4_fence_length_law :
    ∀ content : Str,
      (fenceFor content).length = max ((backtickRuns content).foldl max 0) 2 + 1 ∧
      3 ≤ (fenceFor content).length ∧
      ∀ r ∈ backtickRuns content, r < (fenceFor content).length := by
  intro content
  have hlen : (fenceFor content).length =
      ((backtickRuns content).filter (fun n => 3 ≤ n)).foldl max 2 + 1 := by
    rw [fenceFor, List.length_replicate]
  rw [hlen, foldl_max_filter_ge3]
  refine ⟨by omega, by omega, ?_⟩
  intro r hr
  have := mem_le_foldl_max (backtickRuns content) 0 r hr
  omega

/-- Witness for C4 at content with a longest run of 4 backticks. -/
theorem c4_fence_length_law_witness :
    (fenceFor (str "a````b")).length =
      max ((backtickRuns (str "a````b")).foldl max 0) 2 + 1 ∧
    3 ≤ (fenceFor (str "a````b")).length ∧
    4 < (fenceFor (str "a````b")).length :=
  ⟨(c4_fence_length_law (str "a````b")).1, (c4_fence_length_law (str "a````b")).2.1,
    (c4_fence_length_law (str "a````b")).2.2 4 (by decide)⟩

/-! ## Streaming writer lemmas (claim C5) -/

/-- Folding the chunk writes over a header-written state appends the
concatenation of the chunks and records whether any chunk was non-empty. -/
theorem writer_foldl_write : ∀ (chunks : List Str) (fc : Str) (tn : Nat) (cw : Bool),
    chunks.foldl SessionWriter.write ⟨fc, tn, true, cw⟩ =
      ⟨fc ++ chunks.flatten, tn, true, cw || chunks.any (fun c => !c.isEmpty)⟩ := by
  intro chunks
  induction chunks with
  | nil => intro fc tn cw; simp
  | cons c cs ih =>
    intro fc tn cw
    rw [List.foldl_cons]
    by_cases hc : c.isEmpty
    · have hw : SessionWriter.write ⟨fc, tn, true, cw⟩ c = ⟨fc, tn, true, cw⟩ := by
        rw [SessionWriter.write]
        simp [hc]
      rw [hw, ih]
      have hcnil : c = [] := List.isEmpty_iff.mp hc
      subst hcnil
      simp
    · have hw : SessionWriter.write ⟨fc, tn, true, cw⟩ c = ⟨fc ++ c, tn, true, true⟩ := by
        rw [SessionWriter.write]
        simp [hc]
      rw [hw, ih]
      simp [hc, List.append_assoc]

/-- Claim C5 (amended): `begin` writes the AI header eagerly, so after it
`end(interrupted)` is never a no-op — the final document is the trimmed
prior content, the AI header and opening wrapper fence, all streamed
chunks in order, `\n[Interrupted]` exactly when interrupted and at least
one non-empty chunk was written, and unconditionally the closing fence
and the new empty `# [N+1] Human` header. -/
theorem c5_end_postcondition :
    ∀ (content : Str) (n : Nat) (chunks : List Str) (interrupted : Bool),
      (runWriter content n chunks interrupted).fileContent =
        trimEndChars content ++ str "\n\n# [" ++ natToStr n ++ str "] AI\n\n````markdown\n" ++
          chunks.flatten ++
          (if interrupted && chunks.any (fun c => !c.isEmpty) then str "\n[Interrupted]"
           else []) ++
          (str "\n````\n\n# [" ++ natToStr (n + 1) ++ str "] Human\n\n") := by
  intro content n chunks interrupted
  rw [runWriter, SessionWriter.begin, writer_foldl_write, SessionWriter.endSession]
  simp only [Bool.false_or, Bool.not_true, Bool.false_eq_true, if_neg, not_false_iff]
  simp [List.append_assoc]

/-! ## Fence unwrapping lemmas (claim C6) -/

/-- A list is a Boolean prefix of itself followed by anything. -/
theorem isPrefixOf_append_self : ∀ (p r : Str), p.isPrefixOf (p ++ r) = true := by
  intro p
  induction p with
  | nil => intro r; simp [List.isPrefixOf]
  | cons c p ih => intro r; simp [List.isPrefixOf, ih r]

/-- Prefix testing cancels a common prefix. -/
theorem isPrefixOf_append_cancel : ∀ (a p q : Str),
    (a ++ p).isPrefixOf (a ++ q) = p.isPrefixOf q := by
  intro a
  induction a with
  | nil => intro p q; rfl
  | cons c a ih => intro p q; simpa [List.isPrefixOf] using ih p q

/-- A list is a Boolean suffix of anything followed by itself. -/
theorem isSuffixOf_append_self : ∀ (s p : Str), s.isSuffixOf (p ++ s) = true := by
  intro s p
  rw [List.isSuffixOf, List.reverse_append]
  exact isPrefixOf_append_self s.reverse p.reverse

/-- The leading run of `t` over a replicate of `t` followed by more text
adds the replicate length. -/
theorem leadingRun_replicate_append (t : Char) :
    ∀ (k : Nat) (l : Str), leadingRun t (List.replicate k t ++ l) = k + leadingRun t l := by
  intro k
  induction k with
  | zero => intro l; simp
  | succ k ih =>
    intro l
    rw [List.replicate_succ, List.cons_append, leadingRun, if_pos rfl, ih]
    omega

/-- A leading run stops at a different character. -/
theorem leadingRun_ne (t c : Char) (l : Str) (h : c ≠ t) :
    leadingRun t (c :: l) = 0 := by
  rw [leadingRun, if_neg h]

/-- Claim C6 (amended): the parser strips the `markdown` wrapper only
when the closing run has exactly the opening fence's length.  With
`k ≥ 4` opening backticks: a closing line of exactly `k` backticks is
stripped and the body re-trimmed (first conjunct); a closing run of
`m > k` backticks — equal-or-greater per the original claim — leaves the
content unchanged (second conjunct); and content whose tail fails the
exact closing-fence test is always returned unchanged (third conjunct). -/
theorem c6_unwrap_exact_close :
    ∀ (k m : Nat) (mid : Str), 4 ≤ k → k + 1 ≤ m →
      unwrapMarkdownFence
          (List.replicate k btick ++ (str "markdown\n" ++ (mid ++ '\n' :: List.replicate k btick))) =
        trimChars mid ∧
      unwrapMarkdownFence
          (List.replicate k btick ++ (str "markdown\n" ++ (mid ++ '\n' :: List.replicate m btick))) =
        List.replicate k btick ++ (str "markdown\n" ++ (mid ++ '\n' :: List.replicate m btick)) ∧
      ∀ content : Str,
        (('\n' :: List.replicate (leadingRun btick content) btick).isSuffixOf
            (content.drop (leadingRun btick content + 9)) = false) →
        unwrapMarkdownFence content = content := by
  intro k m mid h4 hm
  have hmchar : ('m' : Char) ≠ btick := by decide
  have hrun : ∀ tail : Str,
      leadingRun btick (List.replicate k btick ++ (str "markdown\n" ++ tail)) = k := by
    intro tail
    rw [leadingRun_replicate_append]
    have h1 : str "markdown\n" ++ tail = 'm' :: (str "arkdown\n" ++ tail) := rfl
    rw [h1, leadingRun_ne btick 'm' _ hmchar]
    omega
  have hdrop : ∀ tail : Str,
      (List.replicate k btick ++ (str "markdown\n" ++ tail)).drop k =
        str "markdown\n" ++ tail :=
    fun tail => List.drop_left' (List.length_replicate k btick)
  have hdrop9 : ∀ tail : Str,
      (List.replicate k btick ++ (str "markdown\n" ++ tail)).drop (k + 9) = tail := by
    intro tail
    rw [← List.append_assoc]
    refine List.drop_left' ?_
    rw [List.length_append, List.length_replicate]
    rfl
  refine ⟨?_, ?_, ?_⟩
  · rw [unwrapMarkdownFence, hrun, hdrop]
    rw [if_pos ⟨h4, isPrefixOf_append_self _ _⟩, hdrop9]
    have hsuf : ('\n' :: List.replicate k btick).isSuffixOf
        (mid ++ '\n' :: List.replicate k btick) = true :=
      isSuffixOf_append_self _ mid
    rw [if_pos hsuf]
    have hlen2 : (mid ++ '\n' :: List.replicate k btick).length - (k + 1) = mid.length := by
      rw [List.length_append, List.length_cons, List.length_replicate]
      omega
    rw [hlen2]
    have h2 : (mid ++ '\n' :: List.replicate k btick).take mid.length = mid :=
      List.take_left' rfl
    rw [h2]
  · rw [unwrapMarkdownFence, hrun, hdrop]
    rw [if_pos ⟨h4, isPrefixOf_append_self _ _⟩, hdrop9]
    have hsuf : ('\n' :: List.replicate k btick).isSuffixOf
        (mid ++ '\n' :: List.replicate m btick) = false := by
      rw [List.isSuffixOf]
      have hrev1 : ('\n' :: List.replicate k btick).reverse =
          List.replicate k btick ++ ['\n'] := by
        rw [List.reverse_cons, List.reverse_replicate]
      have hrev2 : (mid ++ '\n' :: List.replicate m btick).reverse =
          List.replicate m btick ++ ('\n' :: mid.reverse) := by
        rw [List.reverse_append, List.reverse_cons, List.reverse_replicate,
          List.append_assoc]
        rfl
      rw [hrev1, hrev2]
      have hsplitm : List.replicate m btick =
          List.replicate k btick ++ List.replicate (m - k) btick := by
        rw [← List.replicate_add]
        congr 1
        omega
      rw [hsplitm, List.append_assoc, isPrefixOf_append_cancel]
      have hmk : List.replicate (m - k) btick =
          btick :: List.replicate (m - k - 1) btick := by
        have h3 : m - k = (m - k - 1) + 1 := by omega
        conv_lhs => rw [h3, List.replicate_succ]
      rw [hmk]
      simp [List.isPrefixOf]
      decide
    rw [if_neg (by simp [hsuf])]
  · intro content hfail
    rw [unwrapMarkdownFence]
    by_cases hopen : 4 ≤ leadingRun btick content ∧
        (str "markdown\n").isPrefixOf (content.drop (leadingRun btick content))
    · rw [if_pos hopen, if_neg (by simp [hfail])]
    · rw [if_neg hopen]

/-- Witness for C6: the exact-close and longer-close clauses at
`k = 4`, `m = 5`, body `hi`, plus the no-close clause at a content with
no closing fence at all. -/
theorem c6_unwrap_exact_close_witness :
    unwrapMarkdownFence
        (List.replicate 4 btick ++ (str "markdown\n" ++ (str "hi" ++
          '\n' :: List.replicate 4 btick))) = trimChars (str "hi") ∧
    unwrapMarkdownFence
        (List.replicate 4 btick ++ (str "markdown\n" ++ (str "hi" ++
          '\n' :: List.replicate 5 btick))) =
      List.replicate 4 btick ++ (str "markdown\n" ++ (str "hi" ++
        '\n' :: List.replicate 5 btick)) ∧
    unwrapMarkdownFence (str "````markdown\nnoclose") = str "````markdown\nnoclose" :=
  ⟨(c6_unwrap_exact_close 4 5 (str "hi") (by decide) (by decide)).1,
    (c6_unwrap_exact_close 4 5 (str "hi") (by decide) (by decide)).2.1,
    (c6_unwrap_exact_close 4 5 (str "hi") (by decide) (by decide)).2.2
      (str "````markdown\nnoclose") (by decide)⟩

/-! ## Per-reference isolation lemmas (claim C7) -/

/-- A prefix hit makes the containment test succeed. -/
theorem containsSub_of_isPrefixOf (p l : Str) (h : p.isPrefixOf l = true) :
    containsSub p l = true := by
  cases l with
  | nil =>
    cases p with
    | nil => rfl
    | cons c p => simp [List.isPrefixOf] at h
  | cons c rest => rw [containsSub, h, Bool.true_or]

/-- Containment in a cons implies containment in the tail when the head
position misses. -/
theorem containsSub_tail (p : Str) (c : Char) (l : Str)
    (h : containsSub p (c :: l) = false) : containsSub p l = false := by
  rw [containsSub] at h
  exact (Bool.or_eq_false_iff.mp h).2

/-- A Boolean prefix survives truncation no shorter than itself. -/
theorem isPrefixOf_take : ∀ (p l : Str) (n : Nat),
    p.isPrefixOf l = true → p.length ≤ n → p.isPrefixOf (l.take n) = true := by
  intro p
  induction p with
  | nil => intro l n _ _; simp [List.isPrefixOf]
  | cons a p ih =>
    intro l n h hn
    cases l with
    | nil => simp [List.isPrefixOf] at h
    | cons b l =>
      simp only [List.isPrefixOf, Bool.and_eq_true] at h
      cases n with
      | zero => simp at hn
      | succ n =>
        rw [List.take_succ_cons]
        simp only [List.isPrefixOf, Bool.and_eq_true]
        exact ⟨h.1, ih l n h.2 (by simpa using hn)⟩

/-- Substituting for the first occurrence of a pattern that occurs
exactly at the designated position: the text before, the substitution,
and the text after. -/
theorem replaceFirst_append : ∀ (pre pat post X : Str), pat ≠ [] →
    containsSub pat ((pre ++ pat).take (pre.length + pat.length - 1)) = false →
    replaceFirst (pre ++ (pat ++ post)) pat X = pre ++ (X ++ post) := by
  intro pre
  induction pre with
  | nil =>
    intro pat post X hne _
    cases pat with
    | nil => exact absurd rfl hne
    | cons c pat' =>
      rw [List.nil_append, List.cons_append, replaceFirst]
      rw [if_pos (by rw [← List.cons_append]; exact isPrefixOf_append_self _ _)]
      rw [← List.cons_append, List.drop_left]
      rfl
  | cons c pre' ih =>
    intro pat post X hne hfresh
    rw [List.cons_append, replaceFirst]
    have hnotpre : pat.isPrefixOf (c :: (pre' ++ (pat ++ post))) = false := by
      by_contra hcon
      have hyes : pat.isPrefixOf (c :: (pre' ++ (pat ++ post))) = true := by
        cases hb : pat.isPrefixOf (c :: (pre' ++ (pat ++ post)))
        · exact absurd hb hcon
        · rfl
      have hlen : pat.length ≤ (c :: pre').length + pat.length - 1 := by
        simp only [List.length_cons]
        omega
      have htake : pat.isPrefixOf
          (((c :: pre') ++ pat).take ((c :: pre').length + pat.length - 1)) = true := by
        have hpreeq : (c :: (pre' ++ (pat ++ post))).take
              ((c :: pre').length + pat.length - 1) =
            ((c :: pre') ++ pat).take ((c :: pre').length + pat.length - 1) := by
          have h2 : c :: (pre' ++ (pat ++ post)) = ((c :: pre') ++ pat) ++ post := by
            simp
          rw [h2]
          refine List.take_append_of_le_length ?_
          simp only [List.length_append, List.length_cons]
          omega
        rw [← hpreeq]
        exact isPrefixOf_take pat _ _ hyes hlen
      have := containsSub_of_isPrefixOf _ _ htake
      rw [hfresh] at this
      exact absurd this (by simp)
    rw [if_neg (by simp [hnotpre])]
    have hfresh' : containsSub pat
        ((pre' ++ pat).take (pre'.length + pat.length - 1)) = false := by
      have hpat1 : 1 ≤ pat.length := by
        cases pat with
        | nil => exact absurd rfl hne
        | cons a b => simp
      have hamount : (c :: pre').length + pat.length - 1 =
          (pre'.length + pat.length - 1) + 1 := by
        simp only [List.length_cons]
        omega
      rw [hamount, List.cons_append, List.take_succ_cons] at hfresh
      exact containsSub_tail pat c _ hfresh
    rw [ih pat post X hne hfresh']
    rfl

/-- The resolved-count component of the expansion fold adds the file
counts of the successful resolutions, failures contributing zero. -/
theorem expandStep_foldl_snd (R : Str → Except Str (Str × Nat)) :
    ∀ (ms : List Str) (s : Str) (k : Nat),
      (ms.foldl (expandStep R) (s, k)).2 =
        k + (ms.map (fun p =>
          match R p with
          | .ok q => q.2
          | .error _ => 0)).sum := by
  intro ms
  induction ms with
  | nil => intro s k; simp
  | cons p ms ih =>
    intro s k
    rw [List.foldl_cons]
    cases hR : R p with
    | ok q =>
      have hstep : expandStep R (s, k) p =
          (replaceFirst s (mkMatchText p) q.1, k + q.2) := by
        rw [expandStep, hR]
      rw [hstep, ih]
      simp only [List.map_cons, List.sum_cons, hR]
      omega
    | error msg =>
      have hstep : expandStep R (s, k) p =
          (replaceFirst s (mkMatchText p) (errorInline p msg), k) := by
        rw [expandStep, hR]
      rw [hstep, ih]
      simp only [List.map_cons, List.sum_cons, hR]
      omega

/-- A rebuilt match text is never empty. -/
theorem mkMatchText_ne_nil (p : Str) : mkMatchText p ≠ [] := by
  intro h
  have hl := congrArg List.length h
  have h2 : (str "[[").length = 2 := rfl
  have h3 : (str "]]").length = 2 := rfl
  simp [mkMatchText, List.length_append, h2, h3] at hl

/-- Claim C7: per-reference isolation.  First conjunct: for every content
and resolver the resolved count sums the successes over all matches —
failures contribute zero and never abort the fold.  Second conjunct: in a
text with a failing reference followed by a succeeding one (placed at
fresh positions), expansion substitutes the inline error annotation for
the failing reference and still substitutes the other reference's
resolved text, returning its count. -/
theorem c7_per_reference_isolation :
    (∀ (R : Str → Except Str (Str × Nat)) (content : Str),
      (expandReferences R content).2 =
        ((findMatches content).map (fun p =>
          match R p with
          | .ok q => q.2
          | .error _ => 0)).sum) ∧
    (∀ (R : Str → Except Str (Str × Nat)) (a b c r1 r2 msg t2 : Str) (n2 : Nat),
      R r1 = .error msg →
      R r2 = .ok (t2, n2) →
      findMatches (a ++ (mkMatchText r1 ++ (b ++ (mkMatchText r2 ++ c)))) = [r1, r2] →
      containsSub (mkMatchText r1)
        ((a ++ mkMatchText r1).take (a.length + (mkMatchText r1).length - 1)) = false →
      containsSub (mkMatchText r2)
        (((a ++ (errorInline r1 msg ++ b)) ++ mkMatchText r2).take
          ((a ++ (errorInline r1 msg ++ b)).length + (mkMatchText r2).length - 1)) = false →
      expandReferences R (a ++ (mkMatchText r1 ++ (b ++ (mkMatchText r2 ++ c)))) =
        (a ++ (errorInline r1 msg ++ (b ++ (t2 ++ c))), n2)) := by
  constructor
  · intro R content
    rw [expandReferences]
    simpa using expandStep_foldl_snd R (findMatches content) content 0
  · intro R a b c r1 r2 msg t2 n2 hR1 hR2 hfm hf1 hf2
    rw [expandReferences, hfm, List.foldl_cons, List.foldl_cons, List.foldl_nil]
    have hstep1 : expandStep R
        (a ++ (mkMatchText r1 ++ (b ++ (mkMatchText r2 ++ c))), 0) r1 =
        (a ++ (errorInline r1 msg ++ (b ++ (mkMatchText r2 ++ c))), 0) := by
      rw [expandStep, hR1]
      simp only
      rw [replaceFirst_append a (mkMatchText r1) (b ++ (mkMatchText r2 ++ c))
        (errorInline r1 msg) (mkMatchText_ne_nil r1) hf1]
    rw [hstep1]
    have hs1 : a ++ (errorInline r1 msg ++ (b ++ (mkMatchText r2 ++ c))) =
        (a ++ (errorInline r1 msg ++ b)) ++ (mkMatchText r2 ++ c) := by
      simp [List.append_assoc]
    have hstep2 : expandStep R
        (a ++ (errorInline r1 msg ++ (b ++ (mkMatchText r2 ++ c))), 0) r2 =
        (a ++ (errorInline r1 msg ++ (b ++ (t2 ++ c))), n2) := by
      rw [expandStep, hR2]
      simp only
      rw [hs1]
      rw [replaceFirst_append (a ++ (errorInline r1 msg ++ b)) (mkMatchText r2) c
        t2 (mkMatchText_ne_nil r2) hf2]
      simp [List.append_assoc]
    rw [hstep2]

/-- Witness for C7: with `c7resolver`, the reference `bad` fails, the
reference `ok` resolves to `T` with count 1, and expansion of a text
holding both substitutes the annotation and the resolved text. -/
theorem c7_per_reference_isolation_witness :
    expandReferences c7resolver
        (str "A " ++ (mkMatchText (str "bad") ++ (str " m " ++
          (mkMatchText (str "ok") ++ str " z")))) =
      (str "A " ++ (errorInline (str "bad") (str "no") ++ (str " m " ++
        (str "T" ++ str " z"))), 1) :=
  c7_per_reference_isolation.2 c7resolver (str "A ") (str " m ") (str " z")
    (str "bad") (str "ok") (str "no") (str "T") 1 rfl rfl
    (by decide) (by decide) (by decide)

/-! ## Directory placeholder lemmas (claim C8) -/

/-- Splitting after a leading newline yields an empty first line. -/
theorem splitLines_cons_newline (s : Str) :
    splitLines ('\n' :: s) = [] :: splitLines s := by
  rw [splitLines, if_pos rfl]

/-- Splitting never yields an empty line list. -/
theorem splitLines_ne_nil : ∀ s : Str, splitLines s ≠ [] := by
  intro s
  cases s with
  | nil => rw [splitLines]; simp
  | cons c rest =>
    rw [splitLines]
    by_cases hc : c = '\n'
    · rw [if_pos hc]; simp
    · rw [if_neg hc]
      cases h : splitLines rest <;> simp

/-- A newline-free block extends the first line of the following split. -/
theorem splitLines_append_noNL : ∀ (p s : Str), (∀ c ∈ p, c ≠ '\n') →
    ∀ (l : Str) (ls : List Str), splitLines s = l :: ls →
      splitLines (p ++ s) = (p ++ l) :: ls := by
  intro p
  induction p with
  | nil => intro s _ l ls h; simpa using h
  | cons c p' ih =>
    intro s hnl l ls h
    have hc : c ≠ '\n' := hnl c (List.mem_cons_self c p')
    rw [List.cons_append, splitLines, if_neg hc]
    rw [ih s (fun d hd => hnl d (List.mem_cons_of_mem c hd)) l ls h]
    rfl

/-- Line decomposition of both directory placeholders: a blank line, the
`### path/` heading, a blank, the note, and a trailing blank. -/
theorem splitLines_placeholder (A B : Str) (hA : ∀ c ∈ A, c ≠ '\n')
    (hB : ∀ c ∈ B, c ≠ '\n') :
    splitLines ('\n' :: (A ++ ('\n' :: ('\n' :: (B ++ ['\n']))))) =
      [[], A, [], B, []] := by
  have hB1 : splitLines (B ++ ['\n']) = [B, []] := by
    have h0 : splitLines ['\n'] = [] :: [[]] := by
      rw [splitLines_cons_newline]
      rfl
    have := splitLines_append_noNL B ['\n'] hB [] [[]] h0
    simpa using this
  have hB2 : splitLines ('\n' :: ('\n' :: (B ++ ['\n']))) = [] :: [] :: [B, []] := by
    rw [splitLines_cons_newline, splitLines_cons_newline, hB1]
  have hA1 : splitLines (A ++ ('\n' :: ('\n' :: (B ++ ['\n'])))) =
      (A ++ []) :: [] :: [B, []] :=
    splitLines_append_noNL A _ hA [] ([] :: [B, []]) hB2
  rw [splitLines_cons_newline, hA1]
  simp

/-- A line starting with anything but `<` is not a directory-open marker. -/
theorem isDirMarkerOpen_cons_ne (c : Char) (l : Str) (h : c ≠ '<') :
    isDirMarkerOpen (c :: l) = false := by
  rw [isDirMarkerOpen, isMarkerOpen]
  have hpre : (str "<!-- dir: ").isPrefixOf (c :: l) = false := by
    have hd : str "<!-- dir: " = '<' :: str "!-- dir: " := rfl
    rw [hd]
    simp [List.isPrefixOf]
    intro hc
    exact absurd hc.symm h
  rw [hpre]
  rfl

/-- When no line is a directory-open marker, the marker scan finds
nothing. -/
theorem findDirectoryMarkersAux_nil (lines : List Str)
    (h : ∀ line ∈ lines, isDirMarkerOpen line = false) :
    ∀ (fuel i : Nat), findDirectoryMarkersAux lines fuel i = [] := by
  intro fuel
  induction fuel with
  | zero => intro i; rw [findDirectoryMarkersAux]
  | succ fuel ih =>
    intro i
    rw [findDirectoryMarkersAux]
    cases hline : lines[i]? with
    | none => rfl
    | some line =>
      simp only
      have hmem : line ∈ lines := by
        have hi := getElem?_some_lt lines i line hline
        have : lines[i] = line := by
          have := hline
          rwa [List.getElem?_eq_getElem hi, Option.some_inj] at this
        rw [← this]
        exact List.getElem_mem hi
      rw [h line hmem]
      simp only [Bool.false_eq_true, if_neg, not_false_iff]
      exact ih (i + 1)

/-- Both directory placeholders, decomposed as a blank line, heading,
blank, note, and trailing blank, carry no directory marker and are
therefore invisible to the refresh scan. -/
theorem findDirectoryMarkers_placeholder (A B : Str)
    (hA : ∀ c ∈ A, c ≠ '\n') (hB : ∀ c ∈ B, c ≠ '\n')
    (hAh : isDirMarkerOpen A = false) (hBh : isDirMarkerOpen B = false) :
    findDirectoryMarkers ('\n' :: (A ++ ('\n' :: ('\n' :: (B ++ ['\n']))))) = [] := by
  show findDirectoryMarkersAux
      (splitLines ('\n' :: (A ++ ('\n' :: ('\n' :: (B ++ ['\n']))))))
      ((splitLines ('\n' :: (A ++ ('\n' :: ('\n' :: (B ++ ['\n'])))))).length + 1) 0 = []
  rw [splitLines_placeholder A B hA hB]
  refine findDirectoryMarkersAux_nil _ ?_ _ _
  intro line hline
  simp only [List.mem_cons, List.not_mem_nil, or_false] at hline
  rcases hline with h | h | h | h | h
  · rw [h]; decide
  · rw [h]; exact hAh
  · rw [h]; decide
  · rw [h]; exact hBh
  · rw [h]; decide

/-- Claim C8 (amended): a directory reference resolving zero files
yields a placeholder — the "contains only subdirectories" hint exactly
when the reference is non-recursive and a non-excluded direct child
directory exists, otherwise (including every recursive reference) the
"empty directory" note — with resolved count 0, and the placeholder
contains no `<!-- dir -->` markers, so it is invisible to refresh. -/
theorem c8_empty_directory_placeholder :
    ∀ (excl : Str → Bool) (fileRes : Str → Option Str)
      (directChildren : List (Str × Bool)) (matchedFiles : List Str)
      (path : Str) (recursive : Bool),
      matchedFiles.filterMap (fun f => if excl f then none else fileRes f) = [] →
      (∀ ch ∈ path, ch ≠ '\n') →
      expandDirectory excl fileRes directChildren matchedFiles path recursive =
        ((if (!recursive) && directChildren.any (fun e => !excl e.1 && e.2) then
          str "\n### " ++ path ++ str "/\n\n*(contains only subdirectories - use [[" ++
            path ++ str "/**/]] for recursive)*\n"
        else str "\n### " ++ path ++ str "/\n\n*(empty directory)*\n"), 0) ∧
      findDirectoryMarkers
        (expandDirectory excl fileRes directChildren matchedFiles path recursive).1 = [] := by
  intro excl fileRes directChildren matchedFiles path recursive hempty hnl
  have hexp : expandDirectory excl fileRes directChildren matchedFiles path recursive =
      ((if (!recursive) && directChildren.any (fun e => !excl e.1 && e.2) then
        str "\n### " ++ path ++ str "/\n\n*(contains only subdirectories - use [[" ++
          path ++ str "/**/]] for recursive)*\n"
      else str "\n### " ++ path ++ str "/\n\n*(empty directory)*\n"), 0) := by
    simp only [expandDirectory, hempty, List.isEmpty_nil, if_pos]
    by_cases hs : ((!recursive) && directChildren.any (fun e => !excl e.1 && e.2)) = true
    · rw [if_pos hs, if_pos hs]
    · rw [if_neg hs, if_neg hs]
  refine ⟨hexp, ?_⟩
  rw [hexp]
  have hA : ∀ c ∈ str "### " ++ (path ++ str "/"), c ≠ '\n' := by
    intro c hc
    rcases List.mem_append.mp hc with h | h
    · revert h
      have : ∀ c ∈ str "### ", c ≠ '\n' := by decide
      exact this c
    · rcases List.mem_append.mp h with h2 | h2
      · exact hnl c h2
      · revert h2
        have : ∀ c ∈ str "/", c ≠ '\n' := by decide
        exact this c
  have hAh : isDirMarkerOpen (str "### " ++ (path ++ str "/")) = false := by
    have hform : str "### " ++ (path ++ str "/") =
        '#' :: (str "## " ++ (path ++ str "/")) := rfl
    rw [hform]
    exact isDirMarkerOpen_cons_ne '#' _ (by decide)
  by_cases hs : ((!recursive) && directChildren.any (fun e => !excl e.1 && e.2)) = true
  · rw [if_pos hs]
    have hform : str "\n### " ++ path ++ str "/\n\n*(contains only subdirectories - use [[" ++
        path ++ str "/**/]] for recursive)*\n" =
        '\n' :: ((str "### " ++ (path ++ str "/")) ++ ('\n' :: ('\n' ::
          ((str "*(contains only subdirectories - use [[" ++
            (path ++ str "/**/]] for recursive)*")) ++ ['\n'])))) := by
      have h1 : str "\n### " = '\n' :: str "### " := rfl
      have h2 : str "/\n\n*(contains only subdirectories - use [[" =
          str "/" ++ ('\n' :: ('\n' :: str "*(contains only subdirectories - use [[")) := by
        decide
      have h3 : str "/**/]] for recursive)*\n" =
          str "/**/]] for recursive)*" ++ ['\n'] := by decide
      rw [h1, h2, h3]
      simp [List.append_assoc]
    rw [hform]
    refine findDirectoryMarkers_placeholder _ _ hA ?_ hAh ?_
    · intro c hc
      rcases List.mem_append.mp hc with h | h
      · revert h
        have : ∀ c ∈ str "*(contains only subdirectories - use [[", c ≠ '\n' := by decide
        exact this c
      · rcases List.mem_append.mp h with h2 | h2
        · exact hnl c h2
        · revert h2
          have : ∀ c ∈ str "/**/]] for recursive)*", c ≠ '\n' := by decide
          exact this c
    · have hform2 : str "*(contains only subdirectories - use [[" ++
          (path ++ str "/**/]] for recursive)*") =
          '*' :: (str "(contains only subdirectories - use [[" ++
            (path ++ str "/**/]] for recursive)*")) := rfl
      rw [hform2]
      exact isDirMarkerOpen_cons_ne '*' _ (by decide)
  · rw [if_neg hs]
    have hform : str "\n### " ++ path ++ str "/\n\n*(empty directory)*\n" =
        '\n' :: ((str "### " ++ (path ++ str "/")) ++ ('\n' :: ('\n' ::
          (str "*(empty directory)*" ++ ['\n'])))) := by
      have h1 : str "\n### " = '\n' :: str "### " := rfl
      have h2 : str "/\n\n*(empty directory)*\n" =
          str "/" ++ ('\n' :: ('\n' :: (str "*(empty directory)*" ++ ['\n']))) := by decide
      rw [h1, h2]
      simp [List.append_assoc]
    rw [hform]
    refine findDirectoryMarkers_placeholder _ _ hA ?_ hAh ?_
    · have : ∀ c ∈ str "*(empty directory)*", c ≠ '\n' := by decide
      exact this
    · have hform2 : str "*(empty directory)*" = '*' :: str "(empty directory)*" := rfl
      rw [hform2]
      exact isDirMarkerOpen_cons_ne '*' _ (by decide)

/-- Witness for C8: a non-recursive reference over a directory with one
non-excluded child directory and no resolvable files takes the hint
branch; the resulting placeholder carries no markers. -/
theorem c8_empty_directory_placeholder_witness :
    expandDirectory (fun _ => false) (fun _ => none) [(str "d/sub", true)] []
        (str "d") false =
      (str "\n### d/\n\n*(contains only subdirectories - use [[d/**/]] for recursive)*\n", 0) ∧
    findDirectoryMarkers
      (expandDirectory (fun _ => false) (fun _ => none) [(str "d/sub", true)] []
        (str "d") false).1 = [] := by
  have h := c8_empty_directory_placeholder (fun _ => false) (fun _ => none)
    [(str "d/sub", true)] [] (str "d") false (by decide) (by decide)
  refine ⟨?_, h.2⟩
  rw [h.1]
  decide

/-! ## Directory marker lemmas (claim C10) -/

/-- A successful close scan returns a later in-range line whose trim is
the closing marker. -/
theorem findDirCloseAux_spec (lines : List Str) :
    ∀ (fuel j k : Nat), findDirCloseAux lines fuel j = some k →
      j ≤ k ∧ k < lines.length ∧
        trimChars (lines.getD k []) = str "<!-- /dir -->" := by
  intro fuel
  induction fuel with
  | zero =>
    intro j k h
    rw [findDirCloseAux] at h
    exact absurd h (by simp)
  | succ fuel ih =>
    intro j k h
    rw [findDirCloseAux] at h
    cases hline : lines[j]? with
    | none => rw [hline] at h; exact absurd h (by simp)
    | some line =>
      rw [hline] at h
      simp only at h
      by_cases hclose : trimChars line = str "<!-- /dir -->"
      · rw [if_pos hclose] at h
        have hk : j = k := by injection h
        subst hk
        have hj : j < lines.length := getElem?_some_lt lines j line hline
        refine ⟨le_rfl, hj, ?_⟩
        have hgd : lines.getD j [] = line := by
          rw [List.getD_eq_getElem?_getD, hline]
          rfl
        rw [hgd]
        exact hclose
      · rw [if_neg hclose] at h
        have := ih (j + 1) k h
        exact ⟨by omega, this.2.1, this.2.2⟩

/-- Every recorded directory marker has a real closing line strictly
after its opening line. -/
theorem findDirectoryMarkersAux_spec (lines : List Str) :
    ∀ (fuel i : Nat) (m : DirectoryMarker), m ∈ findDirectoryMarkersAux lines fuel i →
      m.startLine < m.endLine ∧ m.endLine < lines.length ∧
        trimChars (lines.getD m.endLine []) = str "<!-- /dir -->" := by
  intro fuel
  induction fuel with
  | zero =>
    intro i m hm
    rw [findDirectoryMarkersAux] at hm
    exact absurd hm (by simp)
  | succ fuel ih =>
    intro i m hm
    rw [findDirectoryMarkersAux] at hm
    cases hline : lines[i]? with
    | none => rw [hline] at hm; exact absurd hm (by simp)
    | some line =>
      rw [hline] at hm
      simp only at hm
      by_cases hopen : isDirMarkerOpen line = true
      · rw [if_pos hopen] at hm
        cases hclose : findDirCloseAux lines lines.length (i + 1) with
        | none => rw [hclose] at hm; exact ih (i + 1) m hm
        | some j =>
          rw [hclose] at hm
          have hspec := findDirCloseAux_spec lines lines.length (i + 1) j hclose
          rcases List.mem_cons.mp hm with h | h
          · subst h
            exact ⟨show i < j by omega, hspec.2.1, hspec.2.2⟩
          · exact ih (j + 1) m h
      · rw [if_neg hopen] at hm
        exact ih (i + 1) m hm

/-- Claim C10 (amended): every directory marker the refresh engine records
has a genuine closing `<!-- /dir -->` line strictly after its opening
line, so an unterminated `<!-- dir: ... -->` block is never recorded or
re-resolved as a directory; and a document with no recorded expansion
spans and no unexpanded reference passes through refreshAllContent
byte-for-byte unchanged.  (Unterminated blocks whose interior holds a
standalone-looking file block are still touched through that file span —
see the counterexample.) -/
theorem c10_unterminated_dir_not_refreshed :
    (∀ (content : Str) (m : DirectoryMarker), m ∈ findDirectoryMarkers content →
      m.startLine < m.endLine ∧ m.endLine < (splitLines content).length ∧
        trimChars ((splitLines content).getD m.endLine []) = str "<!-- /dir -->") ∧
    (∀ (R : Str → Except Str (Str × Nat)) (content : Str),
      findAllExpandedContent content = [] → hasLooseMatch content = false →
      refreshAllContent R content = (content, false, 0)) := by
  constructor
  · intro content m hm
    exact findDirectoryMarkersAux_spec (splitLines content)
      ((splitLines content).length + 1) 0 m hm
  · intro R content hexp hloose
    rw [refreshAllContent]
    simp only [hloose, Bool.false_eq_true, if_neg, not_false_iff, hexp,
      List.isEmpty_nil, if_pos]

/-- Witness for C10: a closed marker block yields a marker whose closing
line is real, and a document with no expansions and no references is
unchanged by refresh. -/
theorem c10_unterminated_dir_not_refreshed_witness :
    ((⟨str "d/", 0, 2⟩ : DirectoryMarker).startLine <
      (⟨str "d/", 0, 2⟩ : DirectoryMarker).endLine ∧
      (⟨str "d/", 0, 2⟩ : DirectoryMarker).endLine <
        (splitLines (str "<!-- dir: d/ -->\nx\n<!-- /dir -->")).length ∧
      trimChars ((splitLines (str "<!-- dir: d/ -->\nx\n<!-- /dir -->")).getD 2 []) =
        str "<!-- /dir -->") ∧
    refreshAllContent failResolver (str "hello") = (str "hello", false, 0) :=
  ⟨c10_unterminated_dir_not_refreshed.1 (str "<!-- dir: d/ -->\nx\n<!-- /dir -->")
      ⟨str "d/", 0, 2⟩ (by decide),
    c10_unterminated_dir_not_refreshed.2 failResolver (str "hello")
      (by decide) (by decide)⟩
